import Mathlib

/-!
Verification of the Mandelbrot renderer in `src/main.rs`.

The embedding is shallow and exact: Rust `f64` values are represented by
rationals (`ℚ`), so every arithmetic operation of the source is modelled by
the corresponding exact rational operation.  All concrete values appearing
in the claims (halves, quarters, small integers) are exactly representable
in `f64` and every operation performed on them in the source is exact, so
the rational model agrees with the binary64 computation on those inputs.
For the one claim about IEEE special values (division by zero producing
NaN/Inf) a separate small model `F` of `f64` with `NaN` and signed
infinities is used; see below.

Machine integers: `usize` values (pixel bounds, pixel coordinates, loop
counters, buffer indices) are modelled by `ℕ`; no arithmetic in the source
can overflow `usize` before the program would already have failed for other
reasons, and none of the claims concerns `usize` overflow.  The `u8` cast
`count as u8` is modelled by `% 256`.
-/

namespace Mandelbrot

/-- Complex number with rational components, modelling `num::Complex<f64>`. -/
structure Cplx where
  re : ℚ
  im : ℚ
deriving DecidableEq

/-- Complex multiplication, modelling `z * z` for `num::Complex<f64>`. -/
def cmul (a b : Cplx) : Cplx :=
  ⟨a.re * b.re - a.im * b.im, a.re * b.im + a.im * b.re⟩

/-- Complex addition, modelling `+` for `num::Complex<f64>`. -/
def cadd (a b : Cplx) : Cplx :=
  ⟨a.re + b.re, a.im + b.im⟩

/-- `z.norm_sqr()` from the `num` crate: `re*re + im*im`. -/
def norm_sqr (z : Cplx) : ℚ :=
  z.re * z.re + z.im * z.im

/-- The loop of `escape_time` (src/main.rs lines 42-47): state is the
current `z`, the current loop index `i`, and the remaining number of
iterations (`limit - i`).  Each round first tests `z.norm_sqr() > 4.0` and
returns `Some(i)` on escape, otherwise updates `z = z * z + c`. -/
def escapeTimeAux (c : Cplx) : Cplx → ℕ → ℕ → Option ℕ
  | _, _, 0 => none
  | z, i, fuel + 1 =>
    if 4 < norm_sqr z then some i
    else escapeTimeAux c (cadd (cmul z z) c) (i + 1) fuel

/-- `escape_time` (src/main.rs lines 40-49): start from `z = 0 + 0i` and
run the loop `for i in 0..limit`. -/
def escape_time (c : Cplx) (limit : ℕ) : Option ℕ :=
  escapeTimeAux c ⟨0, 0⟩ 0 limit

/-- Specification-level orbit of `c`: `z₀ = 0`, `zₙ₊₁ = zₙ² + c`.
Used to state what `escape_time` computes. -/
def zIter (c : Cplx) : ℕ → Cplx
  | 0 => ⟨0, 0⟩
  | n + 1 => cadd (cmul (zIter c n) (zIter c n)) c

/-- `pixel_to_point` (src/main.rs lines 98-105).  `bounds` is
`(width, height)` in pixels, `pixel` is `(column, row)`.  Rust tuple fields
`.0`/`.1` become `.1`/`.2`. -/
def pixel_to_point (bounds : ℕ × ℕ) (pixel : ℕ × ℕ)
    (upper_left lower_right : Cplx) : Cplx :=
  let width : ℚ := lower_right.re - upper_left.re
  let height : ℚ := upper_left.im - lower_right.im
  ⟨upper_left.re + (pixel.1 : ℚ) * width / (bounds.1 : ℚ),
   upper_left.im - (pixel.2 : ℚ) * height / (bounds.2 : ℚ)⟩

/-! ### Characterisation of `escape_time` -/

/-- Invariant step: the loop state at index `i` holds the orbit value
`zIter c i`. -/
lemma escapeTimeAux_zIter_step (c : Cplx) (i : ℕ) :
    cadd (cmul (zIter c i) (zIter c i)) c = zIter c (i + 1) := rfl

/-- What the loop returns when it escapes: running the loop from orbit
position `i` with `fuel` rounds left yields `some j` iff `j` is the first
escaping index in `[i, i + fuel)`. -/
lemma escapeTimeAux_eq_some_iff (c : Cplx) :
    ∀ (fuel i j : ℕ),
      escapeTimeAux c (zIter c i) i fuel = some j ↔
        (i ≤ j ∧ j < i + fuel ∧ 4 < norm_sqr (zIter c j) ∧
          ∀ k, i ≤ k → k < j → ¬ 4 < norm_sqr (zIter c k)) := by
  intro fuel
  induction fuel with
  | zero =>
    intro i j
    simp [escapeTimeAux]
    omega
  | succ fuel ih =>
    intro i j
    rw [escapeTimeAux]
    by_cases h : 4 < norm_sqr (zIter c i)
    · simp only [if_pos h, Option.some.injEq]
      constructor
      · rintro rfl
        exact ⟨le_refl i, by omega, h, fun k hk hk2 => absurd hk2 (by omega)⟩
      · rintro ⟨hij, _, hesc, hfirst⟩
        by_contra hne
        exact hfirst i (le_refl i) (lt_of_le_of_ne hij hne) h
    · rw [if_neg h, escapeTimeAux_zIter_step, ih (i + 1) j]
      constructor
      · rintro ⟨hij, hlt, hesc, hfirst⟩
        refine ⟨by omega, by omega, hesc, fun k hk hk2 => ?_⟩
        rcases Nat.eq_or_lt_of_le hk with rfl | hk'
        · exact h
        · exact hfirst k hk' hk2
      · rintro ⟨hij, hlt, hesc, hfirst⟩
        have hij' : i + 1 ≤ j := by
          rcases Nat.eq_or_lt_of_le hij with rfl | hk'
          · exact absurd h (by simpa using hesc)
          · omega
        exact ⟨hij', by omega, hesc, fun k hk hk2 => hfirst k (by omega) hk2⟩

/-- What the loop returns when it never escapes: `none` iff no orbit point
in the scanned window escapes. -/
lemma escapeTimeAux_eq_none_iff (c : Cplx) :
    ∀ (fuel i : ℕ),
      escapeTimeAux c (zIter c i) i fuel = none ↔
        ∀ k, i ≤ k → k < i + fuel → ¬ 4 < norm_sqr (zIter c k) := by
  intro fuel
  induction fuel with
  | zero =>
    intro i
    simp [escapeTimeAux]
    omega
  | succ fuel ih =>
    intro i
    rw [escapeTimeAux]
    by_cases h : 4 < norm_sqr (zIter c i)
    · simp only [if_pos h]
      constructor
      · intro h2
        exact absurd h2 (by simp)
      · intro hall
        exact absurd (hall i (le_refl i) (by omega) h) (fun f => f)
    · rw [if_neg h, escapeTimeAux_zIter_step, ih (i + 1)]
      constructor
      · intro hall k hk hk2
        rcases Nat.eq_or_lt_of_le hk with rfl | hk'
        · exact h
        · exact hall k hk' (by omega)
      · intro hall k hk hk2
        exact hall k (by omega) (by omega)

/-- `escape_time c limit = some j` iff `j < limit` and `j` is the first
orbit index whose squared norm exceeds 4. -/
lemma escape_time_eq_some_iff (c : Cplx) (limit j : ℕ) :
    escape_time c limit = some j ↔
      (j < limit ∧ 4 < norm_sqr (zIter c j) ∧
        ∀ k, k < j → ¬ 4 < norm_sqr (zIter c k)) := by
  have h0 : (⟨0, 0⟩ : Cplx) = zIter c 0 := rfl
  rw [escape_time, h0, escapeTimeAux_eq_some_iff c limit 0 j]
  constructor
  · rintro ⟨_, hlt, hesc, hfirst⟩
    exact ⟨by omega, hesc, fun k hk => hfirst k (Nat.zero_le k) hk⟩
  · rintro ⟨hlt, hesc, hfirst⟩
    exact ⟨Nat.zero_le j, by omega, hesc, fun k _ hk => hfirst k hk⟩

/-- `escape_time c limit = none` iff no orbit index below `limit` escapes. -/
lemma escape_time_eq_none_iff (c : Cplx) (limit : ℕ) :
    escape_time c limit = none ↔
      ∀ k, k < limit → ¬ 4 < norm_sqr (zIter c k) := by
  have h0 : (⟨0, 0⟩ : Cplx) = zIter c 0 := rfl
  rw [escape_time, h0, escapeTimeAux_eq_none_iff c limit 0]
  constructor
  · intro hall k hk
    exact hall k (Nat.zero_le k) (by omega)
  · intro hall k _ hk
    exact hall k (by omega)

/-! ### The renderer -/

/-- `render` (src/main.rs lines 107-119).  The `assert_eq!` on entry is
modelled by returning `none` (the Rust panic) when the buffer length does
not match `bounds.0 * bounds.1`; otherwise the two nested `for` loops are
the two nested `foldl`s over `List.range`, each writing
`pixels[row * bounds.0 + column]`.  The `count as u8` cast is `% 256` and
the `u8` subtraction `255 - _` is ℕ subtraction (its argument is ≤ 255, so
it never underflows). -/
def render (pixels : List ℕ) (bounds : ℕ × ℕ)
    (upper_left lower_right : Cplx) : Option (List ℕ) :=
  if pixels.length = bounds.1 * bounds.2 then
    some ((List.range bounds.2).foldl (fun px row =>
      (List.range bounds.1).foldl (fun px column =>
        px.set (row * bounds.1 + column)
          (match escape_time (pixel_to_point bounds (column, row)
              upper_left lower_right) 255 with
            | none => 0
            | some count => 255 - count % 256)) px) pixels)
  else none

/-- The byte `render` computes for flat buffer index `j`: the pixel there
is `(column, row) = (j % width, j / width)`. -/
def renderVal (bounds : ℕ × ℕ) (upper_left lower_right : Cplx) (j : ℕ) : ℕ :=
  match escape_time (pixel_to_point bounds (j % bounds.1, j / bounds.1)
      upper_left lower_right) 255 with
  | none => 0
  | some count => 255 - count % 256

/-- Sequence of `set` writes, value at index `i` being `v i`. -/
def writeAll (v : ℕ → ℕ) (idxs : List ℕ) (px : List ℕ) : List ℕ :=
  idxs.foldl (fun l i => l.set i (v i)) px

/-- The flat buffer indices written for one row, in column order. -/
def rowIdxs (w row : ℕ) : List ℕ :=
  (List.range w).map (fun column => row * w + column)

lemma writeAll_nil (v : ℕ → ℕ) (px : List ℕ) : writeAll v [] px = px := rfl

lemma writeAll_cons (v : ℕ → ℕ) (i : ℕ) (idxs : List ℕ) (px : List ℕ) :
    writeAll v (i :: idxs) px = writeAll v idxs (px.set i (v i)) := rfl

lemma writeAll_append (v : ℕ → ℕ) (a b : List ℕ) (px : List ℕ) :
    writeAll v (a ++ b) px = writeAll v b (writeAll v a px) :=
  List.foldl_append ..

lemma length_writeAll (v : ℕ → ℕ) :
    ∀ (idxs : List ℕ) (px : List ℕ), (writeAll v idxs px).length = px.length := by
  intro idxs
  induction idxs with
  | nil => intro px; rfl
  | cons i rest ih =>
    intro px
    rw [writeAll_cons, ih, List.length_set]

lemma writeAll_getD_of_not_mem (v : ℕ → ℕ) :
    ∀ (idxs : List ℕ) (px : List ℕ) (j : ℕ), j ∉ idxs →
      (writeAll v idxs px).getD j 0 = px.getD j 0 := by
  intro idxs
  induction idxs with
  | nil => intro px j _; rfl
  | cons i rest ih =>
    intro px j hj
    rw [writeAll_cons, ih (px.set i (v i)) j (fun h => hj (List.mem_cons_of_mem i h))]
    have hne : i ≠ j := fun h => hj (h ▸ List.mem_cons_self i rest)
    simp [List.getD_eq_getElem?_getD, List.getElem?_set_ne hne]

lemma writeAll_getD_of_mem (v : ℕ → ℕ) :
    ∀ (idxs : List ℕ) (px : List ℕ) (j : ℕ), j ∈ idxs → j < px.length →
      (writeAll v idxs px).getD j 0 = v j := by
  intro idxs
  induction idxs with
  | nil => intro px j hj _; exact absurd hj (List.not_mem_nil j)
  | cons i rest ih =>
    intro px j hj hlen
    rw [writeAll_cons]
    by_cases hr : j ∈ rest
    · exact ih (px.set i (v i)) j hr (by rw [List.length_set]; exact hlen)
    · have hji : j = i := by
        rcases List.mem_cons.mp hj with h | h
        · exact h
        · exact absurd h hr
      subst hji
      rw [writeAll_getD_of_not_mem v rest (px.set j (v j)) j hr]
      simp [List.getD_eq_getElem?_getD, List.getElem?_set_self hlen]

/-- The inner `for column` loop of `render` is `writeAll` over the row's
flat indices. -/
lemma render_inner_eq (bounds : ℕ × ℕ) (upper_left lower_right : Cplx)
    (row : ℕ) (px : List ℕ) :
    (List.range bounds.1).foldl (fun px column =>
        px.set (row * bounds.1 + column)
          (match escape_time (pixel_to_point bounds (column, row)
              upper_left lower_right) 255 with
            | none => 0
            | some count => 255 - count % 256)) px =
      writeAll (renderVal bounds upper_left lower_right)
        (rowIdxs bounds.1 row) px := by
  rw [rowIdxs, writeAll, List.foldl_map]
  refine List.foldl_ext _ _ px ?_
  intro px column hcol
  have hlt : column < bounds.1 := List.mem_range.mp hcol
  have hmod : (row * bounds.1 + column) % bounds.1 = column := by
    rw [Nat.add_comm, Nat.add_mul_mod_self_right, Nat.mod_eq_of_lt hlt]
  have hdiv : (row * bounds.1 + column) / bounds.1 = row := by
    rw [Nat.mul_comm row bounds.1, Nat.mul_add_div (by omega),
      Nat.div_eq_of_lt hlt, Nat.add_zero]
  rw [renderVal, hmod, hdiv]

/-- The outer `for row` loop of `render` is `writeAll` over the flattened
list of all rows' indices. -/
lemma render_outer_eq (bounds : ℕ × ℕ) (upper_left lower_right : Cplx) :
    ∀ (rows : List ℕ) (px : List ℕ),
      rows.foldl (fun px row =>
        (List.range bounds.1).foldl (fun px column =>
          px.set (row * bounds.1 + column)
            (match escape_time (pixel_to_point bounds (column, row)
                upper_left lower_right) 255 with
              | none => 0
              | some count => 255 - count % 256)) px) px =
      writeAll (renderVal bounds upper_left lower_right)
        ((rows.map (fun row => rowIdxs bounds.1 row)).flatten) px := by
  intro rows
  induction rows with
  | nil => intro px; rfl
  | cons r rest ih =>
    intro px
    rw [List.foldl_cons, ih, List.map_cons, List.flatten_cons, writeAll_append,
      render_inner_eq]

/-- `render` on a correctly sized buffer, rewritten to `writeAll` form. -/
lemma render_eq_writeAll (pixels : List ℕ) (bounds : ℕ × ℕ)
    (upper_left lower_right : Cplx)
    (hlen : pixels.length = bounds.1 * bounds.2) :
    render pixels bounds upper_left lower_right =
      some (writeAll (renderVal bounds upper_left lower_right)
        (((List.range bounds.2).map (fun row => rowIdxs bounds.1 row)).flatten)
        pixels) := by
  rw [render, if_pos hlen, render_outer_eq]

/-- Flat index membership: `row * w + column` is among the written indices. -/
lemma mem_allIdxs (w h row column : ℕ) (hrow : row < h) (hcol : column < w) :
    row * w + column ∈ ((List.range h).map (fun row => rowIdxs w row)).flatten := by
  rw [List.mem_flatten]
  refine ⟨rowIdxs w row, List.mem_map_of_mem _ (List.mem_range.mpr hrow), ?_⟩
  rw [rowIdxs]
  exact List.mem_map_of_mem _ (List.mem_range.mpr hcol)

lemma bufIdx_lt (w h row column : ℕ) (hrow : row < h) (hcol : column < w) :
    row * w + column < w * h :=
  calc row * w + column < row * w + w := by omega
    _ = (row + 1) * w := by ring
    _ ≤ h * w := Nat.mul_le_mul_right w hrow
    _ = w * h := Nat.mul_comm h w

/-! ### The numeric-pair parser

Strings are modelled as `List Char`.  Rust's `s.find(separator)` returns
the byte index of the first occurrence of `separator`; since the source
requires `separator` to be an ASCII character (one byte) and the slices
`&s[..index]` / `&s[index + 1..]` are taken at its boundaries, character
indices coincide with what the byte slicing produces, and `find`, `take`
and `drop` over `List Char` model lines 66-69 faithfully.  The generic
`T::from_str` is a parameter, as the Rust function is generic in `T`. -/

/-- `parse_pair` (src/main.rs lines 65-75), with `T::from_str` passed as
`fromStr`. -/
def parse_pair {T : Type} (fromStr : List Char → Option T)
    (s : List Char) (separator : Char) : Option (T × T) :=
  match s.findIdx? (fun ch => ch == separator) with
  | none => none
  | some index =>
    match fromStr (s.take index), fromStr (s.drop (index + 1)) with
    | some l, some r => some (l, r)
    | _, _ => none

/-- Digit accumulator shared by the `from_str` models: consumes the whole
remaining input, failing on the first non-digit (so trailing garbage makes
the parse fail, as Rust's `from_str` does). -/
def parseDigitsAux : ℕ → List Char → Option ℕ
  | acc, [] => some acc
  | acc, d :: ds =>
    if d.isDigit then parseDigitsAux (acc * 10 + (d.toNat - 48)) ds else none

/-- Models Rust `i32::from_str`: an optional `+`/`-` sign followed by one
or more ASCII digits, the whole string consumed, and the value within the
`i32` range (out-of-range input is a parse error in Rust). -/
def i32FromStr (s : List Char) : Option ℤ :=
  match s with
  | [] => none
  | c :: rest =>
    if c = '+' then
      if rest = [] then none
      else (parseDigitsAux 0 rest).bind
        (fun n => if n ≤ 2 ^ 31 - 1 then some (n : ℤ) else none)
    else if c = '-' then
      if rest = [] then none
      else (parseDigitsAux 0 rest).bind
        (fun n => if n ≤ 2 ^ 31 then some (-(n : ℤ)) else none)
    else
      (parseDigitsAux 0 s).bind
        (fun n => if n ≤ 2 ^ 31 - 1 then some (n : ℤ) else none)

/-- Value of a run of ASCII digits, most significant first. -/
def digitsVal (ds : List Char) : ℕ :=
  ds.foldl (fun acc d => acc * 10 + (d.toNat - 48)) 0

/-- Models Rust `f64::from_str` on the decimal grammar
`sign? digits* (. digits*)? ((e|E) sign? digits+)?` with at least one
mantissa digit and the whole string consumed.  The parsed value is kept as
an exact rational: the final rounding to binary64 is not modelled (every
value this development feeds it is exactly representable), and the
`inf`/`infinity`/`nan` word forms Rust also accepts are not modelled (no
claim mentions them). -/
def floatFromStr (s : List Char) : Option ℚ :=
  let signAndRest : ℚ × List Char :=
    match s with
    | '+' :: r => (1, r)
    | '-' :: r => (-1, r)
    | r => (1, r)
  let sign := signAndRest.1
  let r1 := signAndRest.2
  let intDigits := r1.takeWhile Char.isDigit
  let r2 := r1.dropWhile Char.isDigit
  let fracAndRest : List Char × List Char :=
    match r2 with
    | '.' :: r => (r.takeWhile Char.isDigit, r.dropWhile Char.isDigit)
    | r => ([], r)
  let fracDigits := fracAndRest.1
  let r3 := fracAndRest.2
  if intDigits = [] ∧ fracDigits = [] then none
  else
    let mant : ℚ :=
      sign * ((digitsVal intDigits : ℚ) +
        (digitsVal fracDigits : ℚ) / 10 ^ fracDigits.length)
    match r3 with
    | [] => some mant
    | e :: r4 =>
      if e = 'e' ∨ e = 'E' then
        let esignAndRest : ℤ × List Char :=
          match r4 with
          | '+' :: r => (1, r)
          | '-' :: r => (-1, r)
          | r => (1, r)
        let esign := esignAndRest.1
        let r5 := esignAndRest.2
        if r5 ≠ [] ∧ r5.all Char.isDigit then
          some (mant * (10 : ℚ) ^ (esign * (digitsVal r5 : ℤ)))
        else none
      else none

/-- If the separator does not occur, the first-occurrence search fails. -/
lemma parse_pair_findIdx_none {s : List Char} {separator : Char}
    (h : separator ∉ s) : s.findIdx? (fun ch => ch == separator) = none := by
  rw [List.findIdx?_eq_none_iff]
  intro x hx
  simp only [beq_eq_false_iff_ne, ne_eq]
  rintro rfl
  exact h hx

/-- Splitting at the first occurrence: if `s = l ++ separator :: r` with no
separator in `l`, the search finds index `l.length`. -/
lemma parse_pair_findIdx_some (l r : List Char) (separator : Char)
    (h : separator ∉ l) :
    (l ++ separator :: r).findIdx? (fun ch => ch == separator) =
      some l.length := by
  rw [List.findIdx?_append, parse_pair_findIdx_none h]
  simp

/-! ### A model of `f64` special values

For the claim about division by zero producing NaN/Inf, `f64` is modelled
as a rational together with the IEEE-754 special values NaN, `+∞` and
`-∞`.  Finite arithmetic is exact (rounding, overflow and the sign of zero
are not modelled; no claim depends on them — the quantities whose
(non-)zeroness decides the special cases here, pixel indices and bounds
cast from `usize` and differences of equal corners, are computed exactly
by `f64` as well). -/

inductive F where
  | fin : ℚ → F
  | pinf : F
  | ninf : F
  | nan : F
deriving DecidableEq

/-- `f64` addition on the special-value model. -/
def fadd : F → F → F
  | .nan, _ => .nan
  | _, .nan => .nan
  | .fin a, .fin b => .fin (a + b)
  | .fin _, .pinf => .pinf
  | .fin _, .ninf => .ninf
  | .pinf, .fin _ => .pinf
  | .ninf, .fin _ => .ninf
  | .pinf, .pinf => .pinf
  | .ninf, .ninf => .ninf
  | .pinf, .ninf => .nan
  | .ninf, .pinf => .nan

/-- `f64` subtraction on the special-value model. -/
def fsub : F → F → F
  | .nan, _ => .nan
  | _, .nan => .nan
  | .fin a, .fin b => .fin (a - b)
  | .fin _, .pinf => .ninf
  | .fin _, .ninf => .pinf
  | .pinf, .fin _ => .pinf
  | .ninf, .fin _ => .ninf
  | .pinf, .pinf => .nan
  | .ninf, .ninf => .nan
  | .pinf, .ninf => .pinf
  | .ninf, .pinf => .ninf

/-- `f64` multiplication on the special-value model. -/
def fmul : F → F → F
  | .nan, _ => .nan
  | _, .nan => .nan
  | .fin a, .fin b => .fin (a * b)
  | .fin a, .pinf => if a = 0 then .nan else if 0 < a then .pinf else .ninf
  | .fin a, .ninf => if a = 0 then .nan else if 0 < a then .ninf else .pinf
  | .pinf, .fin b => if b = 0 then .nan else if 0 < b then .pinf else .ninf
  | .ninf, .fin b => if b = 0 then .nan else if 0 < b then .ninf else .pinf
  | .pinf, .pinf => .pinf
  | .ninf, .ninf => .pinf
  | .pinf, .ninf => .ninf
  | .ninf, .pinf => .ninf

/-- `f64` division on the special-value model.  Division of a nonzero
finite value by (positive) zero gives a signed infinity; `0.0 / 0.0` gives
NaN. -/
def fdiv : F → F → F
  | .nan, _ => .nan
  | _, .nan => .nan
  | .fin a, .fin b =>
    if b = 0 then (if a = 0 then .nan else if 0 < a then .pinf else .ninf)
    else .fin (a / b)
  | .fin _, .pinf => .fin 0
  | .fin _, .ninf => .fin 0
  | .pinf, .fin b => if 0 ≤ b then .pinf else .ninf
  | .ninf, .fin b => if 0 ≤ b then .ninf else .pinf
  | .pinf, .pinf => .nan
  | .pinf, .ninf => .nan
  | .ninf, .pinf => .nan
  | .ninf, .ninf => .nan

/-- `pixel_to_point` (src/main.rs lines 98-105) computed in the
special-value model of `f64`: the same expressions as `pixel_to_point`,
with every operation mapped to its `F` counterpart.  Inputs (parsed corner
coordinates, `usize` casts) are finite.  Returns the pair
(real part, imaginary part). -/
def pixel_to_point_f (bounds : ℕ × ℕ) (pixel : ℕ × ℕ)
    (upper_left lower_right : Cplx) : F × F :=
  let width := fsub (.fin lower_right.re) (.fin upper_left.re)
  let height := fsub (.fin upper_left.im) (.fin lower_right.im)
  (fadd (.fin upper_left.re)
      (fdiv (fmul (.fin (pixel.1 : ℚ)) width) (.fin (bounds.1 : ℚ))),
   fsub (.fin upper_left.im)
      (fdiv (fmul (.fin (pixel.2 : ℚ)) height) (.fin (bounds.2 : ℚ))))

/-- With positive pixel bounds every operation in `pixel_to_point` stays
finite — whatever the viewport, degenerate or not — and agrees with the
exact rational computation. -/
lemma pixel_to_point_f_fin (bounds pixel : ℕ × ℕ) (upper_left lower_right : Cplx)
    (hw : 0 < bounds.1) (hh : 0 < bounds.2) :
    pixel_to_point_f bounds pixel upper_left lower_right =
      (.fin (pixel_to_point bounds pixel upper_left lower_right).re,
       .fin (pixel_to_point bounds pixel upper_left lower_right).im) := by
  have hw' : (bounds.1 : ℚ) ≠ 0 := Nat.cast_ne_zero.mpr (by omega)
  have hh' : (bounds.2 : ℚ) ≠ 0 := Nat.cast_ne_zero.mpr (by omega)
  rw [pixel_to_point_f, pixel_to_point]
  simp only [fsub, fmul, fdiv, fadd, if_neg hw', if_neg hh']

/-! ### Further helper lemmas -/

lemma bufIdx_mod (w row column : ℕ) (h : column < w) :
    (row * w + column) % w = column := by
  rw [Nat.add_comm, Nat.add_mul_mod_self_right, Nat.mod_eq_of_lt h]

lemma bufIdx_div (w row column : ℕ) (h : column < w) :
    (row * w + column) / w = row := by
  rw [Nat.mul_comm row w, Nat.mul_add_div (by omega),
    Nat.div_eq_of_lt h, Nat.add_zero]

/-- The orbit of the origin is constantly the origin: `0² + 0 = 0`. -/
lemma zIter_origin (k : ℕ) : zIter ⟨0, 0⟩ k = ⟨0, 0⟩ := by
  induction k with
  | zero => rfl
  | succ k ih => rw [zIter, ih]; simp [cadd, cmul]

/-- The orbit starts at the origin, whose squared norm is `0`. -/
lemma norm_sqr_zIter_zero (c : Cplx) : norm_sqr (zIter c 0) = 0 := by
  simp [zIter, norm_sqr]

/-- The first magnitude check of `escape_time` happens while `z = 0`, so an
escape at iteration `0` is impossible. -/
lemma escape_time_ne_some_zero (c : Cplx) (limit : ℕ) :
    escape_time c limit ≠ some 0 := by
  intro h
  have h2 := ((escape_time_eq_some_iff c limit 0).mp h).2.1
  rw [norm_sqr_zIter_zero] at h2
  exact absurd h2 (by norm_num)

/-- Every flat index below `w * h` is among the written indices. -/
lemma mem_allIdxs_of_lt (w h j : ℕ) (hj : j < w * h) :
    j ∈ ((List.range h).map (fun row => rowIdxs w row)).flatten := by
  have hw : 0 < w := by
    rcases Nat.eq_zero_or_pos w with rfl | hw
    · simp at hj
    · exact hw
  have hcol : j % w < w := Nat.mod_lt _ hw
  have hrow : j / w < h := Nat.div_lt_iff_lt_mul hw |>.mpr (Nat.mul_comm w h ▸ hj)
  have hdecomp : j / w * w + j % w = j := by
    rw [Nat.mul_comm]
    exact Nat.div_add_mod j w
  have := mem_allIdxs w h (j / w) (j % w) hrow hcol
  rwa [hdecomp] at this

/-- A successful `render` keeps the buffer length and fills every index
with its `renderVal`. -/
lemma render_some_elim (pixels out : List ℕ) (bounds : ℕ × ℕ)
    (upper_left lower_right : Cplx)
    (h : render pixels bounds upper_left lower_right = some out) :
    pixels.length = bounds.1 * bounds.2 ∧ out.length = pixels.length ∧
      ∀ j, j < out.length →
        out.getD j 0 = renderVal bounds upper_left lower_right j := by
  by_cases hlen : pixels.length = bounds.1 * bounds.2
  · rw [render_eq_writeAll pixels bounds upper_left lower_right hlen,
      Option.some.injEq] at h
    subst h
    refine ⟨hlen, length_writeAll .., fun j hj => ?_⟩
    rw [length_writeAll] at hj
    exact writeAll_getD_of_mem _ _ pixels j
      (mem_allIdxs_of_lt bounds.1 bounds.2 j (by omega)) hj
  · rw [render, if_neg hlen] at h
    exact absurd h (by simp)

/-- The `renderVal` at a row-major index, expressed at its pixel. -/
lemma renderVal_bufIdx (bounds : ℕ × ℕ) (upper_left lower_right : Cplx)
    (row column : ℕ) (hcol : column < bounds.1) :
    renderVal bounds upper_left lower_right (row * bounds.1 + column) =
      (match escape_time (pixel_to_point bounds (column, row)
          upper_left lower_right) 255 with
        | none => 0
        | some count => 255 - count % 256) := by
  rw [renderVal, bufIdx_mod _ _ _ hcol, bufIdx_div _ _ _ hcol]

/-- An escape count produced with limit 255 lies in `[1, 254]`, so the
`u8` cast is the identity on it. -/
lemma escape_count_bounds (c : Cplx) (count : ℕ)
    (h : escape_time c 255 = some count) :
    1 ≤ count ∧ count ≤ 254 ∧ count % 256 = count := by
  have h2 := (escape_time_eq_some_iff c 255 count).mp h
  have h1 : 1 ≤ count := by
    rcases Nat.eq_zero_or_pos count with rfl | hpos
    · exact absurd h (escape_time_ne_some_zero c 255)
    · exact hpos
  exact ⟨h1, by omega, Nat.mod_eq_of_lt (by omega)⟩

/-- Dropping past the separator of `l ++ c :: r` leaves `r`. -/
lemma drop_length_succ_append (l r : List Char) (c : Char) :
    (l ++ c :: r).drop (l.length + 1) = r := by
  induction l with
  | nil => rfl
  | cons x xs ih => simp [ih]

/-- `parse_pair` fails when the separator does not occur. -/
lemma parse_pair_of_not_mem {T : Type} (fromStr : List Char → Option T)
    (s : List Char) (sep : Char) (h : sep ∉ s) :
    parse_pair fromStr s sep = none := by
  rw [parse_pair, parse_pair_findIdx_none h]

/-- `parse_pair` splits at the first separator occurrence, excluding the
separator from both halves, and succeeds exactly when both halves parse. -/
lemma parse_pair_append {T : Type} (fromStr : List Char → Option T)
    (l r : List Char) (sep : Char) (h : sep ∉ l) :
    parse_pair fromStr (l ++ sep :: r) sep =
      (match fromStr l, fromStr r with
        | some a, some b => some (a, b)
        | _, _ => none) := by
  rw [parse_pair, parse_pair_findIdx_some l r sep h]
  show (match fromStr ((l ++ sep :: r).take l.length),
      fromStr ((l ++ sep :: r).drop (l.length + 1)) with
    | some a, some b => some (a, b)
    | _, _ => none) = _
  rw [List.take_left, drop_length_succ_append]

/-- The float model parses `"0.5"` to the exact value one half. -/
lemma floatFromStr_half : floatFromStr ['0', '.', '5'] = some (1/2) := by
  have h : floatFromStr ['0', '.', '5'] =
      some ((1 : ℚ) * (((0 : ℕ) : ℚ) + ((5 : ℕ) : ℚ) / 10 ^ 1)) := rfl
  rw [h]
  norm_num

/-- The float model parses `"1.5"` to the exact value three halves. -/
lemma floatFromStr_three_halves : floatFromStr ['1', '.', '5'] = some (3/2) := by
  have h : floatFromStr ['1', '.', '5'] =
      some ((1 : ℚ) * (((1 : ℕ) : ℚ) + ((5 : ℕ) : ℚ) / 10 ^ 1)) := rfl
  rw [h]
  norm_num

/-- The point `(5, 5)` escapes at iteration 1 for every limit ≥ 2: the
check at iteration 0 sees `z = 0`, the check at iteration 1 sees
`|(5,5)|² = 50 > 4`. -/
lemma escape_time_five_five (limit : ℕ) (h : 2 ≤ limit) :
    escape_time ⟨5, 5⟩ limit = some 1 := by
  refine (escape_time_eq_some_iff ⟨5, 5⟩ limit 1).mpr ⟨by omega, ?_, ?_⟩
  · show (4 : ℚ) < norm_sqr (zIter ⟨5, 5⟩ 1)
    norm_num [zIter, norm_sqr, cadd, cmul]
  · intro j hj
    have hj0 : j = 0 := by omega
    subst hj0
    rw [norm_sqr_zIter_zero]
    norm_num

/-! ### The claims -/

/-- Claim C1: `escape_time c limit` starts from `z = 0 + 0i` and repeats up
to `limit` times, testing `|z|² > 4` before each update `z = z² + c`: it
returns `some i` exactly when `i` is the first orbit index whose squared
norm exceeds 4 and `i ∈ [0, limit)`, and `none` exactly when no orbit
index below `limit` escapes. -/
theorem C1_escape_time_functional (c : Cplx) (limit : ℕ) :
    (∀ i, escape_time c limit = some i ↔
      (i < limit ∧ 4 < norm_sqr (zIter c i) ∧
        ∀ j, j < i → ¬ 4 < norm_sqr (zIter c j))) ∧
    (escape_time c limit = none ↔
      ∀ j, j < limit → ¬ 4 < norm_sqr (zIter c j)) :=
  ⟨fun i => escape_time_eq_some_iff c limit i, escape_time_eq_none_iff c limit⟩

/-- Claim C1, instantiated: `escape_time (5,5) 255 = some 1` and index 1 is
the first escaping orbit index. -/
theorem C1_escape_time_functional_witness :
    escape_time ⟨5, 5⟩ 255 = some 1 ↔
      (1 < 255 ∧ 4 < norm_sqr (zIter ⟨5, 5⟩ 1) ∧
        ∀ j, j < 1 → ¬ 4 < norm_sqr (zIter ⟨5, 5⟩ j)) :=
  (C1_escape_time_functional ⟨5, 5⟩ 255).1 1

/-- Claim C2: on a buffer of length `width * height`, `render` succeeds and
writes into `buffer[row * width + column]` the byte `0` when the classifier
with limit 255 reports no escape for the mapped point and `255 - count`
when it reports escape after `count` iterations; moreover every index of
the buffer holds its rendered value (every index is written). -/
theorem C2_render_fills_buffer (pixels : List ℕ) (bounds : ℕ × ℕ)
    (upper_left lower_right : Cplx)
    (hlen : pixels.length = bounds.1 * bounds.2) :
    ∃ out, render pixels bounds upper_left lower_right = some out ∧
      out.length = pixels.length ∧
      (∀ row column, row < bounds.2 → column < bounds.1 →
        out.getD (row * bounds.1 + column) 0 =
          (match escape_time (pixel_to_point bounds (column, row)
              upper_left lower_right) 255 with
            | none => 0
            | some count => 255 - count)) ∧
      (∀ j, j < out.length →
        out.getD j 0 = renderVal bounds upper_left lower_right j) := by
  have hr := render_eq_writeAll pixels bounds upper_left lower_right hlen
  obtain ⟨hl, hlen2, hval⟩ :=
    render_some_elim pixels _ bounds upper_left lower_right hr
  refine ⟨_, hr, hlen2, ?_, hval⟩
  intro row column hrow hcol
  have hjlt : row * bounds.1 + column <
      (writeAll (renderVal bounds upper_left lower_right)
        (((List.range bounds.2).map (fun row => rowIdxs bounds.1 row)).flatten)
        pixels).length := by
    rw [hlen2, hlen]
    exact bufIdx_lt _ _ _ _ hrow hcol
  rw [hval _ hjlt, renderVal_bufIdx bounds upper_left lower_right row column hcol]
  rcases hesc : escape_time (pixel_to_point bounds (column, row)
      upper_left lower_right) 255 with _ | count
  · rfl
  · show 255 - count % 256 = 255 - count
    rw [(escape_count_bounds _ _ hesc).2.2]

/-- Claim C2, instantiated on a 1×1 image. -/
theorem C2_render_fills_buffer_witness :
    ∃ out, render [7] (1, 1) ⟨5, 5⟩ ⟨6, 4⟩ = some out ∧
      out.length = [7].length ∧
      (∀ row column, row < (1, 1).2 → column < (1, 1).1 →
        out.getD (row * (1, 1).1 + column) 0 =
          (match escape_time (pixel_to_point (1, 1) (column, row)
              ⟨5, 5⟩ ⟨6, 4⟩) 255 with
            | none => 0
            | some count => 255 - count)) ∧
      (∀ j, j < out.length → out.getD j 0 = renderVal (1, 1) ⟨5, 5⟩ ⟨6, 4⟩ j) :=
  C2_render_fills_buffer [7] (1, 1) ⟨5, 5⟩ ⟨6, 4⟩ (by decide)

/-- Claim C3: for positive bounds, `pixel_to_point` returns real part
`upper_left.re + column * (lower_right.re - upper_left.re) / width` and
imaginary part
`upper_left.im - row * (upper_left.im - lower_right.im) / height`; and the
worked example maps bounds `(100, 200)`, pixel `(25, 175)`, corners
`(-1, 1)` and `(1, -1)` exactly to `(-1/2, -3/4)`. -/
theorem C3_pixel_to_point_formula :
    (∀ (bounds pixel : ℕ × ℕ) (upper_left lower_right : Cplx),
      0 < bounds.1 → 0 < bounds.2 →
      pixel_to_point bounds pixel upper_left lower_right =
        ⟨upper_left.re + (pixel.1 : ℚ) *
            (lower_right.re - upper_left.re) / (bounds.1 : ℚ),
         upper_left.im - (pixel.2 : ℚ) *
            (upper_left.im - lower_right.im) / (bounds.2 : ℚ)⟩) ∧
    pixel_to_point (100, 200) (25, 175) ⟨-1, 1⟩ ⟨1, -1⟩ = ⟨-1/2, -3/4⟩ :=
  ⟨fun _ _ _ _ _ _ => rfl, by norm_num [pixel_to_point, Cplx.mk.injEq]⟩

/-- Claim C3, instantiated at the worked example. -/
theorem C3_pixel_to_point_formula_witness :
    pixel_to_point (100, 200) (25, 175) ⟨-1, 1⟩ ⟨1, -1⟩ =
      ⟨-1 + (25 : ℚ) * (1 - -1) / 100, 1 - (175 : ℚ) * (1 - -1) / 200⟩ :=
  C3_pixel_to_point_formula.1 (100, 200) (25, 175) ⟨-1, 1⟩ ⟨1, -1⟩
    (by norm_num) (by norm_num)

/-- Claim C4: `render` on a buffer whose length differs from
`width * height` fails its assertion before writing anything (modelled as
`none`); with matching length it succeeds, and every index the loop writes,
`row * width + column`, is within the buffer. -/
theorem C4_render_length_assertion (pixels : List ℕ) (bounds : ℕ × ℕ)
    (upper_left lower_right : Cplx) :
    (pixels.length ≠ bounds.1 * bounds.2 →
      render pixels bounds upper_left lower_right = none) ∧
    (pixels.length = bounds.1 * bounds.2 →
      (render pixels bounds upper_left lower_right).isSome = true ∧
      ∀ row column, row < bounds.2 → column < bounds.1 →
        row * bounds.1 + column < pixels.length) := by
  constructor
  · intro hne
    rw [render, if_neg hne]
  · intro hlen
    refine ⟨by rw [render_eq_writeAll _ _ _ _ hlen]; rfl, ?_⟩
    intro row column hrow hcol
    rw [hlen]
    exact bufIdx_lt _ _ _ _ hrow hcol

/-- Claim C4, instantiated: a 2-byte buffer for a 1×1 image is rejected. -/
theorem C4_render_length_assertion_witness :
    render [1, 2] (1, 1) ⟨0, 0⟩ ⟨1, 1⟩ = none :=
  (C4_render_length_assertion [1, 2] (1, 1) ⟨0, 0⟩ ⟨1, 1⟩).1 (by decide)

/-- Claim C5: `parse_pair` fails when the separator is absent; otherwise it
splits at the first occurrence (separator excluded from both sides) and
succeeds exactly when both halves parse; the concrete integer and float
examples behave as claimed. -/
theorem C5_parse_pair_split :
    (∀ (T : Type) (fromStr : List Char → Option T) (s : List Char) (sep : Char),
      sep ∉ s → parse_pair fromStr s sep = none) ∧
    (∀ (T : Type) (fromStr : List Char → Option T) (l r : List Char) (sep : Char),
      sep ∉ l →
      parse_pair fromStr (l ++ sep :: r) sep =
        (match fromStr l, fromStr r with
          | some a, some b => some (a, b)
          | _, _ => none)) ∧
    parse_pair i32FromStr ['1', '0', ',', '2', '0'] ',' = some (10, 20) ∧
    parse_pair i32FromStr ['1', '0', ','] ',' = none ∧
    parse_pair i32FromStr [',', '1', '0'] ',' = none ∧
    parse_pair i32FromStr ([] : List Char) ',' = none ∧
    parse_pair i32FromStr ['1', '0', ',', '2', '0', 'x', 'y'] ',' = none ∧
    parse_pair floatFromStr ['0', '.', '5', 'x', '1', '.', '5'] 'x' =
      some (1/2, 3/2) := by
  refine ⟨fun T fromStr s sep h => parse_pair_of_not_mem fromStr s sep h,
    fun T fromStr l r sep h => parse_pair_append fromStr l r sep h,
    by decide, by decide, by decide, by decide, by decide, ?_⟩
  have hsplit : (['0', '.', '5', 'x', '1', '.', '5'] : List Char) =
      ['0', '.', '5'] ++ 'x' :: ['1', '.', '5'] := rfl
  rw [hsplit, parse_pair_append floatFromStr ['0', '.', '5'] ['1', '.', '5'] 'x'
    (by decide), floatFromStr_half, floatFromStr_three_halves]

/-- Claim C5, instantiated: splitting `"10,20"` at the first `','`. -/
theorem C5_parse_pair_split_witness :
    parse_pair i32FromStr (['1', '0'] ++ ',' :: ['2', '0']) ',' =
      (match i32FromStr ['1', '0'], i32FromStr ['2', '0'] with
        | some a, some b => some (a, b)
        | _, _ => none) :=
  C5_parse_pair_split.2.1 ℤ i32FromStr ['1', '0'] ['2', '0'] ',' (by decide)

/-- Claim C6 is false as stated: `escape_time` never returns `some 0` for
any positive limit, because the first magnitude check happens while
`z = 0`; at `(5, 5)` the code returns `some 1` (with limit 255), not
`some 0`. -/
theorem C6_counterexample :
    escape_time ⟨5, 5⟩ 255 = some 1 ∧
      ¬ ∃ limit, 0 < limit ∧ escape_time (⟨5, 5⟩ : Cplx) limit = some 0 := by
  constructor
  · exact escape_time_five_five 255 (by norm_num)
  · rintro ⟨limit, _, h⟩
    exact escape_time_ne_some_zero ⟨5, 5⟩ limit h

/-- Claim C6, amended: the point `(5, 5)`, far outside radius 2, escapes at
iteration 1 — the earliest possible, since the first check is made on
`z = 0` — so `escape_time((5,5), limit) = Some(1)` for every
`limit ≥ 2`. -/
theorem C6_escape_point_far_outside (limit : ℕ) (h : 2 ≤ limit) :
    escape_time ⟨5, 5⟩ limit = some 1 :=
  escape_time_five_five limit h

/-- Claim C6 (amended), instantiated at the renderer's limit 255. -/
theorem C6_escape_point_far_outside_witness :
    escape_time ⟨5, 5⟩ 255 = some 1 :=
  C6_escape_point_far_outside 255 (by norm_num)

/-- Claim C7: the origin never escapes — its orbit is constantly `0`, so
`|z|²` never exceeds 4 and `escape_time((0,0), limit) = None` for every
positive limit. -/
theorem C7_origin_never_escapes (limit : ℕ) (h : 0 < limit) :
    escape_time ⟨0, 0⟩ limit = none := by
  refine (escape_time_eq_none_iff ⟨0, 0⟩ limit).mpr ?_
  intro k _
  rw [zIter_origin]
  show ¬ (4 : ℚ) < norm_sqr ⟨0, 0⟩
  norm_num [norm_sqr]

/-- Claim C7, instantiated at the renderer's limit 255. -/
theorem C7_origin_never_escapes_witness :
    escape_time ⟨0, 0⟩ 255 = none :=
  C7_origin_never_escapes 255 (by norm_num)

/-- Claim C8: with positive bounds and a non-degenerate viewport, pixel
`(0, 0)` maps exactly to `upper_left`. -/
theorem C8_pixel_zero_maps_to_upper_left (bounds : ℕ × ℕ)
    (upper_left lower_right : Cplx) (hw : 0 < bounds.1) (hh : 0 < bounds.2)
    (hre : lower_right.re ≠ upper_left.re)
    (him : upper_left.im ≠ lower_right.im) :
    pixel_to_point bounds (0, 0) upper_left lower_right = upper_left := by
  obtain ⟨ure, uim⟩ := upper_left
  simp [pixel_to_point]

/-- Claim C8, instantiated on the worked example's viewport. -/
theorem C8_pixel_zero_maps_to_upper_left_witness :
    pixel_to_point (100, 200) (0, 0) ⟨-1, 1⟩ ⟨1, -1⟩ = ⟨-1, 1⟩ :=
  C8_pixel_zero_maps_to_upper_left (100, 200) ⟨-1, 1⟩ ⟨1, -1⟩
    (by norm_num) (by norm_num) (by norm_num) (by norm_num)

/-- Claim C9 is false as stated: a degenerate viewport does not make
`pixel_to_point` divide by zero — the divisors are the pixel bounds, not
viewport quantities.  At bounds `(100, 200)`, pixel `(25, 175)` and the
degenerate viewport with both corner real parts `0`, the `f64` model
yields the finite components `(0, -3/4)`, not NaN or Inf. -/
theorem C9_counterexample :
    (Cplx.mk 0 (-1)).re = (Cplx.mk 0 1).re ∧
    pixel_to_point_f (100, 200) (25, 175) ⟨0, 1⟩ ⟨0, -1⟩ =
      (F.fin 0, F.fin (-3/4)) :=
  ⟨rfl, by norm_num [pixel_to_point_f, fsub, fmul, fdiv, fadd, F.fin.injEq]⟩

/-- Claim C9, amended: division by zero in `pixel_to_point` is caused by a
zero pixel-bounds dimension, not by a degenerate viewport.  With both
bounds dimensions positive the computation performs no division by zero
and both result components are finite (agreeing with the exact rational
mapping) for every viewport, degenerate ones included; with bounds width
`0` the real component is Inf (nonzero numerator) or NaN (degenerate
viewport making the numerator zero as well). -/
theorem C9_division_by_zero_needs_zero_bounds :
    (∀ (bounds pixel : ℕ × ℕ) (upper_left lower_right : Cplx),
      0 < bounds.1 → 0 < bounds.2 →
      pixel_to_point_f bounds pixel upper_left lower_right =
        (.fin (pixel_to_point bounds pixel upper_left lower_right).re,
         .fin (pixel_to_point bounds pixel upper_left lower_right).im)) ∧
    (pixel_to_point_f (0, 1) (1, 0) ⟨0, 1⟩ ⟨2, -1⟩).1 = F.pinf ∧
    (pixel_to_point_f (0, 1) (0, 0) ⟨0, 1⟩ ⟨0, -1⟩).1 = F.nan :=
  ⟨fun bounds pixel ul lr hw hh => pixel_to_point_f_fin bounds pixel ul lr hw hh,
   by norm_num [pixel_to_point_f, fsub, fmul, fdiv, fadd],
   by norm_num [pixel_to_point_f, fsub, fmul, fdiv, fadd]⟩

/-- Claim C9 (amended), instantiated: positive bounds with a degenerate
viewport still give finite components. -/
theorem C9_division_by_zero_needs_zero_bounds_witness :
    pixel_to_point_f (100, 200) (25, 175) ⟨0, 1⟩ ⟨0, -1⟩ =
      (.fin (pixel_to_point (100, 200) (25, 175) ⟨0, 1⟩ ⟨0, -1⟩).re,
       .fin (pixel_to_point (100, 200) (25, 175) ⟨0, 1⟩ ⟨0, -1⟩).im) :=
  C9_division_by_zero_needs_zero_bounds.1 (100, 200) (25, 175) ⟨0, 1⟩ ⟨0, -1⟩
    (by norm_num) (by norm_num)

/-- Claim C10: `escape_time` never returns `some 0` (the first check is on
`z = 0`); with the renderer's limit 255 any escape count lies in
`[1, 254]`, so the byte `255 - count` lies in `[1, 254]` with no `u8`
wrap-around, and the byte value 255 never appears in a rendered buffer. -/
theorem C10_no_escape_at_zero_and_no_byte_255 :
    (∀ (c : Cplx) (limit : ℕ), 1 ≤ limit → escape_time c limit ≠ some 0) ∧
    (∀ (c : Cplx) (count : ℕ), escape_time c 255 = some count →
      1 ≤ count ∧ count ≤ 254 ∧ 1 ≤ 255 - count ∧ 255 - count ≤ 254 ∧
        count % 256 = count) ∧
    (∀ (pixels out : List ℕ) (bounds : ℕ × ℕ) (upper_left lower_right : Cplx),
      render pixels bounds upper_left lower_right = some out →
      ∀ j, j < out.length → out.getD j 0 ≠ 255) := by
  refine ⟨fun c limit _ => escape_time_ne_some_zero c limit, ?_, ?_⟩
  · intro c count h
    obtain ⟨h1, h2, h3⟩ := escape_count_bounds c count h
    exact ⟨h1, h2, by omega, by omega, h3⟩
  · intro pixels out bounds upper_left lower_right h j hj
    obtain ⟨_, _, hval⟩ := render_some_elim pixels out bounds upper_left lower_right h
    rw [hval j hj, renderVal]
    rcases hesc : escape_time (pixel_to_point bounds (j % bounds.1, j / bounds.1)
        upper_left lower_right) 255 with _ | count
    · show (0 : ℕ) ≠ 255
      norm_num
    · show 255 - count % 256 ≠ 255
      obtain ⟨h1, h2, h3⟩ := escape_count_bounds _ _ hesc
      omega

/-- Claim C10, instantiated at the origin with the renderer's limit. -/
theorem C10_no_escape_at_zero_and_no_byte_255_witness :
    escape_time ⟨0, 0⟩ 255 ≠ some 0 :=
  C10_no_escape_at_zero_and_no_byte_255.1 ⟨0, 0⟩ 255 (by norm_num)

end Mandelbrot
